import Mathlib

/-!
Verification of the chat-app relay server and client framing layer.

The embedding mirrors `src/server/main.py` and `src/client/gui.py`:

* bytes are modelled as `List Nat` (byte values / code points);
* the wire delimiter is the byte sequence of the literal `"<EOF>"`;
* `readAll` is modelled over an explicit script of `recv` results
  (`RecvEvent`), one event per `recv` call: a data chunk, a
  `BlockingIOError`, or another exception;
* the `handle_client` read/broadcast loop is modelled by `extractLoop`,
  which repeatedly calls the `readAll` model with a fresh empty buffer
  (exactly as the Python code does) and collects every byte string it
  hands to `broadcast`;
* `broadcast` is modelled with an explicit per-recipient send outcome
  (success, `BrokenPipeError`, `BlockingIOError`, other exception), and
  registry removal uses `removeClient`, the semantics of Python's
  `list.remove` (first occurrence, `ValueError` when absent);
* the accept loop of `main` is modelled by `acceptLoop` over a script of
  accept results.
-/

namespace ChatApp

/-- A connected client socket, identified by its handle. -/
abbrev Conn := Nat

/-- The byte values of the wire delimiter `"<EOF>"`. -/
def delim : List Nat := [60, 69, 79, 70, 62]

/-- The byte values of `": "`, inserted by `broadcast` between the
sender's address and the payload. -/
def colonSpace : List Nat := [58, 32]

/-- Client send path (`Window.send_message`): append `"<EOF>"` to the
payload before writing it to the socket. -/
def encodeMsg (p : List Nat) : List Nat := p ++ delim

/-- Client display path (`Window.read`):
`msg.decode('utf-8').replace('<EOF>', '')` — scan left to right and
delete every (non-overlapping) occurrence of the delimiter. -/
def stripEOF (l : List Nat) : List Nat :=
  match l with
  | [] => []
  | x :: xs =>
    if delim <+: (x :: xs) then stripEOF ((x :: xs).drop delim.length)
    else x :: stripEOF xs
termination_by l.length
decreasing_by
  · simp [delim]; omega
  · simp

/-- One result of a `client_socket.recv(1024)` call inside `readAll`:
a chunk of bytes (possibly empty, signalling orderly close), a
`BlockingIOError`, or any other exception. -/
inductive RecvEvent
  | chunk (b : List Nat)
  | wouldBlock
  | errRead
deriving DecidableEq

/-- The value `readAll` returns: `msg d` is `(d, True)`, `closed d` is
`(d, False)`, `notReady` is `(None, True)` (the `BlockingIOError`
branch), `errorOut` is `(None, False)` (any other exception), and
`noEvents` marks exhaustion of the event script. -/
inductive ReadOut
  | msg (data : List Nat)
  | closed (data : List Nat)
  | notReady
  | errorOut
  | noEvents
deriving DecidableEq

/-- The `while True` loop of `readAll`: receive a chunk, append it to
the buffer, return `(data, False)` on an empty chunk, `(data, True)`
once the buffer ends with the delimiter, `(None, True)` on
`BlockingIOError` (note: the local buffer is discarded), and
`(None, False)` on any other exception.  Returns the unconsumed rest of
the event script alongside the result. -/
def readAllAux : List RecvEvent → List Nat → ReadOut × List RecvEvent
  | [], _ => (.noEvents, [])
  | .chunk b :: es, data =>
    if b = [] then (.closed (data ++ b), es)
    else if delim <:+ (data ++ b) then (.msg (data ++ b), es)
    else readAllAux es (data ++ b)
  | .wouldBlock :: es, _ => (.notReady, es)
  | .errRead :: es, _ => (.errorOut, es)

/-- `readAll` as called by `handle_client`: the buffer starts empty on
every call (`data = b""`). -/
def readAll (events : List RecvEvent) : ReadOut × List RecvEvent :=
  readAllAux events []

/-- The read half of `handle_client`'s loop, with `fuel` bounding the
number of `readAll` calls: every byte string the loop passes to
`broadcast` (`if data: ... broadcast(data, ...)`), in order.  The loop
stops when `conn` is false (empty chunk or read error) and keeps going
on `None, True` (would-block). -/
def extractLoop : Nat → List RecvEvent → List (List Nat)
  | 0, _ => []
  | _ + 1, [] => []
  | fuel + 1, e :: es =>
    match readAllAux (e :: es) [] with
    | (.msg m, rest) => (if m = [] then [] else [m]) ++ extractLoop fuel rest
    | (.closed d, _) => if d = [] then [] else [d]
    | (.notReady, rest) => extractLoop fuel rest
    | (.errorOut, _) => []
    | (.noEvents, _) => []

/-- All messages `handle_client` broadcasts for a given `recv` script
(each `readAll` call consumes at least one event, so `events.length`
calls always suffice). -/
def extractMsgs (events : List RecvEvent) : List (List Nat) :=
  extractLoop events.length events

/-- The outcome of one `client.sendall(message)` inside `broadcast`. -/
inductive SendOutcome
  | ok
  | brokenPipe
  | blockWrite
  | errSend
deriving DecidableEq

/-- Python `list.remove`: delete the first occurrence, raise
`ValueError` when the element is absent. -/
def removeClient : List Conn → Conn → Except Unit (List Conn)
  | [], _ => .error ()
  | x :: xs, c =>
    if x = c then .ok xs
    else (removeClient xs c).map (fun r => x :: r)

/-- The `for client in clients[:]` loop of `broadcast`: skip the
sender; on success record the delivery; on `BrokenPipeError` or any
other exception remove the recipient from the live registry; on
`BlockingIOError` just yield.  A `ValueError` escaping `list.remove`
propagates as `.error`.  Returns the deliveries in order and the final
registry. -/
def broadcastLoop (outcome : Conn → SendOutcome) (sender : Conn) (message : List Nat) :
    List Conn → List Conn → Except Unit (List (Conn × List Nat) × List Conn)
  | [], reg => .ok ([], reg)
  | c :: cs, reg =>
    if c = sender then broadcastLoop outcome sender message cs reg
    else
      match outcome c with
      | .ok =>
        match broadcastLoop outcome sender message cs reg with
        | .ok (sends, reg') => .ok ((c, message) :: sends, reg')
        | .error e => .error e
      | .brokenPipe =>
        match removeClient reg c with
        | .ok reg' => broadcastLoop outcome sender message cs reg'
        | .error e => .error e
      | .blockWrite => broadcastLoop outcome sender message cs reg
      | .errSend =>
        match removeClient reg c with
        | .ok reg' => broadcastLoop outcome sender message cs reg'
        | .error e => .error e

/-- `broadcast(message, sender)`: a no-op when fewer than two clients
are registered; otherwise prepend `str(sender.getpeername()) + ": "`
to the message and send it to every registered client except the
sender, iterating over the snapshot `clients[:]`. -/
def broadcast (addrOf : Conn → List Nat) (outcome : Conn → SendOutcome)
    (message : List Nat) (sender : Conn) (clients : List Conn) :
    Except Unit (List (Conn × List Nat) × List Conn) :=
  if clients.length < 2 then .ok ([], clients)
  else broadcastLoop outcome sender (addrOf sender ++ colonSpace ++ message) clients clients

/-- One result of a `server.accept()` call in `main`'s loop. -/
inductive AcceptEvent
  | conn (c : Conn)
  | wouldBlock
  | errAccept
deriving DecidableEq

/-- The `while True` accept loop of `main`: on a new connection spawn a
handler and continue; on `BlockingIOError` yield and continue; on any
other exception print the error and `break`.  Returns the accepted
connections in order, paired with `true` when the loop is still running
after the script (it only stopped for lack of events) and `false` when
it exited via `break`. -/
def acceptLoop : List AcceptEvent → List Conn × Bool
  | [] => ([], true)
  | .conn c :: es =>
    let r := acceptLoop es
    (c :: r.1, r.2)
  | .wouldBlock :: es => acceptLoop es
  | .errAccept :: _ => ([], false)

/-! ### Framing lemmas: the delimiter has no border -/

/-- An infix of `u ++ v` lies inside `u`, lies inside `v`, or spans the
boundary, splitting into a nonempty suffix of `u` and a nonempty
prefix of `v`. -/
theorem infix_append_cases {α : Type} {a u v : List α} (h : a <:+: u ++ v) :
    a <:+: u ∨ a <:+: v ∨
      ∃ s t, a = s ++ t ∧ s ≠ [] ∧ t ≠ [] ∧ s <:+ u ∧ t <+: v := by
  obtain ⟨s', t', hst⟩ := h
  have h1 : (s' ++ a) ++ t' = u ++ v := by simpa [List.append_assoc] using hst
  rcases List.append_eq_append_iff.mp h1 with ⟨a₂, hu, _⟩ | ⟨c', hsa, hv⟩
  · exact Or.inl ⟨s', a₂, by simp [hu, List.append_assoc]⟩
  · rcases List.append_eq_append_iff.mp hsa with ⟨d, hu2, ha2⟩ | ⟨e, _, hc2⟩
    · by_cases hd : d = []
      · subst hd
        simp only [List.nil_append] at ha2
        exact Or.inr (Or.inl ⟨[], t', by simp [hv, ha2]⟩)
      · by_cases hc : c' = []
        · subst hc
          simp only [List.append_nil] at ha2
          exact Or.inl ⟨s', [], by simp [hu2, ha2]⟩
        · exact Or.inr (Or.inr ⟨d, c', ha2, hd, hc, ⟨s', hu2.symm⟩, ⟨t', hv.symm⟩⟩)
    · refine Or.inr (Or.inl ⟨e, t', ?_⟩)
      rw [hv, hc2, List.append_assoc]

/-- The delimiter is border-free: if it is a prefix of `s ++ delim` and
does not occur inside `s`, then `s` is empty. -/
theorem delim_border_free {s : List Nat} (hs : ¬ delim <:+: s)
    (h : delim <+: s ++ delim) : s = [] := by
  by_contra hne
  have hd : delim = (s ++ delim).take delim.length := by
    obtain ⟨t, ht⟩ := h
    rw [← ht, List.take_left]
  by_cases hl : delim.length ≤ s.length
  · rw [List.take_append_of_le_length hl] at hd
    exact hs (List.IsPrefix.isInfix (hd ▸ List.take_prefix delim.length s))
  · push_neg at hl
    rw [List.take_append_eq_append_take, List.take_of_length_le (le_of_lt hl)] at hd
    have hsk : s = delim.take s.length := by
      have h0 := congrArg (List.take s.length) hd
      rw [List.take_append_of_le_length (le_refl _), List.take_length] at h0
      exact h0.symm
    have hk1 : 1 ≤ s.length := List.length_pos.mpr hne
    have hk4 : s.length ≤ 4 := by
      have : delim.length = 5 := by decide
      omega
    rw [hsk] at hd
    rw [List.length_take] at hd
    have hmin : s.length ⊓ delim.length = s.length := by
      have : delim.length = 5 := by decide
      omega
    rw [hmin] at hd
    set k := s.length with hkdef
    interval_cases k <;> exact absurd hd (by decide)

/-- No proper initial segment of `p ++ delim` ends with the delimiter
when `p` is delimiter-free. -/
theorem delim_not_suffix_of_proper {q r p : List Nat} (hqr : q ++ r = p ++ delim)
    (hr : r ≠ []) (hp : ¬ delim <:+: p) : ¬ delim <:+ q := by
  rintro ⟨q', hq⟩
  have hdl5 : delim.length = 5 := by decide
  have hlq : q.length = q'.length + 5 := by
    have h0 := congrArg List.length hq
    simp only [List.length_append, hdl5] at h0
    omega
  have hlqr : q.length + r.length = p.length + 5 := by
    have h0 := congrArg List.length hqr
    simp only [List.length_append, hdl5] at h0
    omega
  have hrpos : 1 ≤ r.length := List.length_pos.mpr hr
  have hql : q'.length < p.length := by omega
  have hq'pre : q' <+: p ++ delim :=
    ⟨delim ++ r, by rw [← List.append_assoc, hq, hqr]⟩
  have hq'p : q' <+: p :=
    List.prefix_of_prefix_length_le hq'pre (List.prefix_append p delim) (by omega)
  obtain ⟨w, hw⟩ := hq'p
  have hwne : w ≠ [] := by
    intro hnil
    rw [hnil, List.append_nil] at hw
    have := congrArg List.length hw
    omega
  have hcan : delim ++ r = w ++ delim := by
    have h2 : q' ++ (delim ++ r) = q' ++ (w ++ delim) := by
      rw [← List.append_assoc, hq, hqr, ← hw, List.append_assoc]
    exact List.append_cancel_left h2
  have hwpre : delim <+: w ++ delim := ⟨r, hcan⟩
  have hwinf : ¬ delim <:+: w := fun hin => hp (hin.trans ⟨q', [], by simp [hw]⟩)
  exact hwne (delim_border_free hwinf hwpre)

/-- The encoded frame of any payload ends with the delimiter. -/
theorem delim_suffix_encode (p : List Nat) : delim <:+ p ++ delim :=
  List.suffix_append p delim

theorem stripEOF_nil : stripEOF [] = [] := by
  rw [stripEOF]

theorem stripEOF_cons_of_not_delim {x : Nat} {xs : List Nat} (h : ¬ delim <+: x :: xs) :
    stripEOF (x :: xs) = x :: stripEOF xs := by
  rw [stripEOF]
  rw [if_neg h]

theorem stripEOF_delim_append (l : List Nat) : stripEOF (delim ++ l) = stripEOF l := by
  have hpre : delim <+: delim ++ l := ⟨l, rfl⟩
  show stripEOF (60 :: ([69, 79, 70, 62] ++ l)) = stripEOF l
  rw [stripEOF]
  rw [if_pos (by exact hpre)]
  congr 1

theorem stripEOF_encode_eq {p : List Nat} (hp : ¬ delim <:+: p) :
    stripEOF (encodeMsg p) = p := by
  induction p with
  | nil =>
    have h1 := stripEOF_delim_append []
    rw [List.append_nil, stripEOF_nil] at h1
    simpa [encodeMsg] using h1
  | cons x xs ih =>
    have hnot : ¬ delim <+: (x :: xs) ++ delim := by
      intro hcon
      exact List.cons_ne_nil x xs (delim_border_free hp hcon)
    rw [List.cons_append] at hnot
    show stripEOF ((x :: xs) ++ delim) = x :: xs
    rw [List.cons_append, stripEOF_cons_of_not_delim hnot]
    have hxs : ¬ delim <:+: xs := fun h => hp (List.infix_cons h)
    rw [show xs ++ delim = encodeMsg xs from rfl, ih hxs]

/-! ### Lemmas about the `readAll` / `handle_client` read path -/

theorem extractLoop_nil (fuel : Nat) : extractLoop fuel [] = [] := by
  cases fuel <;> rfl

theorem extractLoop_msg (fuel : Nat) (e : RecvEvent) (es : List RecvEvent)
    {m : List Nat} {rest : List RecvEvent}
    (h : readAllAux (e :: es) [] = (.msg m, rest)) (hm : m ≠ []) :
    extractLoop (fuel + 1) (e :: es) = m :: extractLoop fuel rest := by
  simp only [extractLoop, h]
  rw [if_neg hm]
  simp

theorem extractLoop_closed (fuel : Nat) (e : RecvEvent) (es : List RecvEvent)
    {d : List Nat} {rest : List RecvEvent}
    (h : readAllAux (e :: es) [] = (.closed d, rest)) (hd : d ≠ []) :
    extractLoop (fuel + 1) (e :: es) = [d] := by
  simp only [extractLoop, h]
  rw [if_neg hd]

theorem readAll_single_chunk {j : List Nat} (hne : j ≠ []) (hsuf : delim <:+ j) :
    readAllAux [RecvEvent.chunk j] [] = (.msg j, []) := by
  simp only [readAllAux]
  rw [if_neg hne, if_pos (by simpa using hsuf)]
  simp

/-- Feeding a sequence of chunks that reassembles a single encoded
frame `p ++ delim` makes one `readAll` call buffer all of them and
return the whole frame: no intermediate buffer state ends with the
delimiter. -/
theorem readAllAux_chunks {p : List Nat} (hp : ¬ delim <:+: p) :
    ∀ (cs : List (List Nat)) (acc : List Nat), cs ≠ [] → (∀ c ∈ cs, c ≠ []) →
      acc ++ cs.flatten = p ++ delim →
      readAllAux (cs.map RecvEvent.chunk) acc = (.msg (p ++ delim), [])
  | [], _, hne, _, _ => absurd rfl hne
  | [c], acc, _, hall, hflat => by
    have hc : c ≠ [] := hall c (by simp)
    have hacc : acc ++ c = p ++ delim := by simpa using hflat
    simp only [List.map_cons, List.map_nil, readAllAux]
    rw [if_neg hc, if_pos (by rw [hacc]; exact delim_suffix_encode p), hacc]
  | c :: c' :: cs, acc, _, hall, hflat => by
    have hc : c ≠ [] := hall c (by simp)
    have hflat' : (acc ++ c) ++ (List.flatten (c' :: cs)) = p ++ delim := by
      simpa [List.append_assoc] using hflat
    have hrest : List.flatten (c' :: cs) ≠ [] := by
      intro h0
      have hc' : c' ≠ [] := hall c' (by simp)
      rw [List.flatten_cons] at h0
      exact hc' (List.append_eq_nil.mp h0).1
    have hnotsuf : ¬ delim <:+ (acc ++ c) :=
      delim_not_suffix_of_proper hflat' hrest hp
    simp only [List.map_cons, readAllAux]
    rw [if_neg hc, if_neg hnotsuf]
    exact readAllAux_chunks hp (c' :: cs) (acc ++ c) (by simp)
      (fun d hd => hall d (by simp at hd ⊢; tauto)) hflat'

/-- The reassembled chunked frame is extracted exactly once by the
`handle_client` loop. -/
theorem extract_chunked_frame {p : List Nat} {cs : List (List Nat)} (hp : ¬ delim <:+: p)
    (hne : cs ≠ []) (hall : ∀ c ∈ cs, c ≠ []) (hflat : cs.flatten = p ++ delim) :
    extractMsgs (cs.map RecvEvent.chunk) = [p ++ delim] := by
  have hread := readAllAux_chunks hp cs [] hne hall (by simpa using hflat)
  have hmne : p ++ delim ≠ [] := by
    intro h0
    exact (by decide : delim ≠ []) (List.append_eq_nil.mp h0).2
  match cs, hne, hread with
  | c :: cs', _, hread =>
    show extractLoop (List.map RecvEvent.chunk (c :: cs')).length
        (List.map RecvEvent.chunk (c :: cs')) = [p ++ delim]
    rw [List.map_cons] at hread ⊢
    rw [show (RecvEvent.chunk c :: List.map RecvEvent.chunk cs').length
        = (List.map RecvEvent.chunk cs').length + 1 from rfl]
    rw [extractLoop_msg _ _ _ hread hmne, extractLoop_nil]

/-! ### Lemmas about `broadcast` and the client registry -/

/-- `list.remove` succeeds on a present element and yields the list
with its first occurrence deleted. -/
theorem removeClient_ok {reg : List Conn} {c : Conn} (h : c ∈ reg) :
    removeClient reg c = .ok (reg.erase c) := by
  induction reg with
  | nil => simp at h
  | cons x xs ih =>
    by_cases hx : x = c
    · subst hx
      simp [removeClient, List.erase_cons_head]
    · have hc : c ∈ xs := by
        rcases List.mem_cons.mp h with h1 | h1
        · exact absurd h1.symm hx
        · exact h1
      rw [List.erase_cons_tail (by simpa using hx)]
      simp [removeClient, hx, ih hc, Except.map]

/-- `list.remove` raises `ValueError` on an absent element. -/
theorem removeClient_absent {reg : List Conn} {c : Conn} (h : c ∉ reg) :
    removeClient reg c = .error () := by
  induction reg with
  | nil => rfl
  | cons x xs ih =>
    have hx : ¬ x = c := fun h0 => h (h0 ▸ List.mem_cons_self x xs)
    have hc : c ∉ xs := fun h0 => h (List.mem_cons_of_mem x h0)
    simp [removeClient, hx, ih hc, Except.map]

/-- The broadcast loop when every send succeeds: one delivery per
non-sender entry of the snapshot, in order, and the registry is
untouched. -/
theorem broadcastLoop_all_ok (sender : Conn) (m : List Nat) :
    ∀ (l reg : List Conn),
      broadcastLoop (fun _ => .ok) sender m l reg =
        .ok ((l.filter (fun c => decide (c ≠ sender))).map (fun c => (c, m)), reg)
  | [], _ => rfl
  | c :: cs, reg => by
    by_cases hcs : c = sender
    · subst hcs
      simp [broadcastLoop, List.filter_cons, broadcastLoop_all_ok c m cs reg]
    · simp [broadcastLoop, hcs, List.filter_cons, broadcastLoop_all_ok sender m cs reg]

/-- The broadcast loop when exactly one recipient `f` fails (broken
pipe or any other send error): every other non-sender entry is still
delivered to, and `f` is removed from the registry. -/
theorem broadcastLoop_one_fail {outcome : Conn → SendOutcome} {sender f : Conn}
    (m : List Nat) (hout1 : ∀ c, c ≠ f → outcome c = .ok)
    (hout2 : outcome f = .brokenPipe ∨ outcome f = .errSend)
    (hfs : f ≠ sender) :
    ∀ (l reg : List Conn), l.Nodup → (f ∈ l → f ∈ reg) →
      broadcastLoop outcome sender m l reg =
        .ok ((l.filter (fun c => decide (c ≠ sender ∧ c ≠ f))).map (fun c => (c, m)),
          if f ∈ l then reg.erase f else reg) := by
  intro l
  induction l with
  | nil => intro reg _ _; simp [broadcastLoop]
  | cons c cs ih =>
    intro reg hnd hmem
    have hnd' : cs.Nodup := hnd.of_cons
    by_cases hcs : c = sender
    · have hfc : f ≠ c := fun h0 => hfs (h0.trans hcs)
      have hmemcs : f ∈ c :: cs ↔ f ∈ cs := by
        simp [List.mem_cons, hfc]
      rw [show broadcastLoop outcome sender m (c :: cs) reg
          = broadcastLoop outcome sender m cs reg by simp [broadcastLoop, hcs]]
      rw [ih reg hnd' (fun h0 => hmem (hmemcs.mpr h0))]
      simp [List.filter_cons, hcs, hmemcs, hfs]
    · by_cases hcf : c = f
      · subst hcf
        have hcreg : c ∈ reg := hmem (List.mem_cons_self c cs)
        have hccs : c ∉ cs := (List.nodup_cons.mp hnd).1
        have hloop : broadcastLoop outcome sender m (c :: cs) reg
            = broadcastLoop outcome sender m cs (reg.erase c) := by
          rcases hout2 with h2 | h2 <;>
            simp [broadcastLoop, hcs, h2, removeClient_ok hcreg]
        rw [hloop, ih (reg.erase c) hnd' (fun h0 => absurd h0 hccs)]
        simp [List.filter_cons, List.mem_cons, hccs]
      · have houtc : outcome c = .ok := hout1 c hcf
        have hfc : f ≠ c := fun h0 => hcf h0.symm
        have hmemcs : f ∈ c :: cs ↔ f ∈ cs := by
          simp [List.mem_cons, hfc]
        have hloop := ih reg hnd' (fun h0 => hmem (hmemcs.mpr h0))
        rw [show broadcastLoop outcome sender m (c :: cs) reg
            = match broadcastLoop outcome sender m cs reg with
              | .ok (sends, reg') => .ok ((c, m) :: sends, reg')
              | .error e => .error e by simp [broadcastLoop, hcs, houtc]]
        rw [hloop]
        simp [List.filter_cons, hcs, hcf, hmemcs]

/-- The attributed prefix `address ++ ": " ++ payload` contains no
delimiter occurrence when neither the address nor the payload does:
an occurrence cannot span the `": "` separator, whose bytes do not
occur in the delimiter. -/
theorem attributed_head_no_delim {a p : List Nat} (ha : ¬ delim <:+: a)
    (hp : ¬ delim <:+: p) : ¬ delim <:+: (a ++ colonSpace ++ p) := by
  intro h
  rcases infix_append_cases h with h1 | h1 | ⟨s, t, hst, hsne, htne, hsuf, hpre⟩
  · rcases infix_append_cases h1 with h2 | h2 | ⟨s, t, hst, hsne, htne, _, hpre⟩
    · exact ha h2
    · have hle := h2.length_le
      have h5 : delim.length = 5 := by decide
      have hc2 : colonSpace.length = 2 := by decide
      omega
    · obtain ⟨w, hw⟩ := hpre
      match t, htne, hw with
      | t0 :: t', _, hw =>
        have ht0 : t0 = 58 := by
          have := congrArg (List.head?) hw
          simpa [colonSpace] using this
        have hmem : (58 : Nat) ∈ delim := by
          rw [hst, ht0.symm]
          exact List.mem_append_right s (List.mem_cons_self t0 t')
        exact absurd hmem (by decide)
  · exact hp h1
  · obtain ⟨z, hz⟩ : ∃ z, s.getLast? = some z := by
      cases h0 : s.getLast? with
      | none => exact absurd (List.getLast?_eq_none_iff.mp h0) hsne
      | some z => exact ⟨z, rfl⟩
    obtain ⟨w, hw⟩ := hsuf
    have h1 : (a ++ colonSpace).getLast? = some 32 := by
      rw [List.getLast?_append]
      rfl
    have h2 : (w ++ s).getLast? = some z := by
      rw [List.getLast?_append, hz]
      rfl
    rw [hw, h1] at h2
    have hz32 : z = 32 := by
      injection h2 with h3
      omega
    have hmem : (32 : Nat) ∈ delim := by
      have hins : (32 : Nat) ∈ s := by
        rw [← hz32]
        exact List.mem_of_mem_getLast? hz
      exact (List.IsPrefix.subset ⟨t, hst.symm⟩) hins
    exact absurd hmem (by decide)

/-- Every encoded-frame concatenation ends with the delimiter. -/
theorem flatten_encode_eq (ps : List (List Nat)) (hne : ps ≠ []) :
    ∃ q, (ps.map encodeMsg).flatten = q ++ delim := by
  induction ps with
  | nil => exact absurd rfl hne
  | cons p ps ih =>
    cases ps with
    | nil => exact ⟨p, by simp [encodeMsg]⟩
    | cons p' ps' =>
      obtain ⟨q, hq⟩ := ih (by simp)
      refine ⟨p ++ delim ++ q, ?_⟩
      rw [List.map_cons, List.flatten_cons, hq]
      simp [encodeMsg, List.append_assoc]

/-! ### Claim theorems -/

/-- C1: broadcasting from a registered origin with every send
succeeding delivers the message to every other registered connection
exactly once, and never to the origin; the registry is unchanged. -/
theorem broadcast_excludes_origin (addrOf : Conn → List Nat) (msg : List Nat)
    (sender : Conn) (clients : List Conn) (hnd : clients.Nodup)
    (hs : sender ∈ clients) (h2 : 2 ≤ clients.length) :
    ∃ sends : List (Conn × List Nat),
      broadcast addrOf (fun _ => .ok) msg sender clients = .ok (sends, clients) ∧
      (∀ c ∈ clients, c ≠ sender → (sends.map Prod.fst).count c = 1) ∧
      (sends.map Prod.fst).count sender = 0 := by
  refine ⟨(clients.filter (fun c => decide (c ≠ sender))).map
      (fun c => (c, addrOf sender ++ colonSpace ++ msg)), ?_, ?_, ?_⟩
  · rw [broadcast, if_neg (by omega)]
    exact broadcastLoop_all_ok sender _ clients clients
  · intro c hc hcs
    rw [List.map_map,
      show (Prod.fst ∘ fun c : Conn => (c, addrOf sender ++ colonSpace ++ msg)) = id from rfl,
      List.map_id, List.count_filter (by simp [hcs])]
    exact List.count_eq_one_of_mem hnd hc
  · rw [List.map_map,
      show (Prod.fst ∘ fun c : Conn => (c, addrOf sender ++ colonSpace ++ msg)) = id from rfl,
      List.map_id, List.count_eq_zero]
    intro hmem
    have hdec := (List.mem_filter.mp hmem).2
    simp at hdec

/-- C1 witness: with registry {0, 1, 2} and sender 0, clients 1 and 2
each receive exactly once and 0 receives nothing. -/
theorem broadcast_excludes_origin_witness :
    ([0, 1, 2] : List Conn).Nodup ∧ (0 : Conn) ∈ ([0, 1, 2] : List Conn) ∧
    2 ≤ ([0, 1, 2] : List Conn).length ∧
    ∃ sends : List (Conn × List Nat),
      broadcast (fun _ => [65]) (fun _ => .ok) [104] 0 [0, 1, 2] = .ok (sends, [0, 1, 2]) ∧
      (∀ c ∈ ([0, 1, 2] : List Conn), c ≠ 0 → (sends.map Prod.fst).count c = 1) ∧
      (sends.map Prod.fst).count 0 = 0 :=
  ⟨by decide, by decide, by decide,
    broadcast_excludes_origin (fun _ => [65]) [104] 0 [0, 1, 2]
      (by decide) (by decide) (by decide)⟩

/-- C2 counterexample: two concatenated encoded frames fed to the read
path in a single call yield ONE extracted message (the undivided
concatenation), not two decoded messages. -/
theorem multi_frame_extraction_cex :
    extractMsgs [RecvEvent.chunk (encodeMsg [97] ++ encodeMsg [98])]
      = [encodeMsg [97] ++ encodeMsg [98]] ∧
    (extractMsgs [RecvEvent.chunk (encodeMsg [97] ++ encodeMsg [98])]).length = 1 ∧
    extractMsgs [RecvEvent.chunk (encodeMsg [97] ++ encodeMsg [98])]
      ≠ [encodeMsg [97], encodeMsg [98]] := by decide

/-- C2 amended: feeding the concatenation of N ≥ 1 encoded frames in a
single call yields exactly one extracted message, namely the whole
concatenation (the frames are never split apart). -/
theorem concat_frames_single_message (ps : List (List Nat)) (hne : ps ≠ []) :
    extractMsgs [RecvEvent.chunk ((ps.map encodeMsg).flatten)]
      = [(ps.map encodeMsg).flatten] := by
  obtain ⟨q, hq⟩ := flatten_encode_eq ps hne
  have hblob : (ps.map encodeMsg).flatten ≠ [] := by
    rw [hq]
    intro h0
    exact (by decide : delim ≠ []) (List.append_eq_nil.mp h0).2
  have hsuf : delim <:+ (ps.map encodeMsg).flatten := by
    rw [hq]
    exact List.suffix_append q delim
  have hread := readAll_single_chunk hblob hsuf
  show extractLoop 1 _ = _
  rw [extractLoop_msg 0 _ _ hread hblob, extractLoop_nil]

/-- C2 witness: the two frames `"a<EOF>"`, `"b<EOF>"` in one call come
out as the single blob `"a<EOF>b<EOF>"`. -/
theorem concat_frames_single_message_witness :
    ([[97], [98]] : List (List Nat)) ≠ [] ∧
    extractMsgs [RecvEvent.chunk ((([[97], [98]] : List (List Nat)).map encodeMsg).flatten)]
      = [(([[97], [98]] : List (List Nat)).map encodeMsg).flatten] :=
  ⟨by decide, concat_frames_single_message [[97], [98]] (by decide)⟩

/-- C3: a single complete frame `p ++ <EOF>` is returned whole by the
read path, and each recipient receives exactly
`address ++ ": " ++ p ++ <EOF>`: an attribution prefix, the original
payload, and exactly one trailing delimiter (the prefix before the
final delimiter is delimiter-free). -/
theorem single_frame_attributed_delivery (addrOf : Conn → List Nat) (p : List Nat)
    (sender : Conn) (clients : List Conn) (hp : ¬ delim <:+: p)
    (ha : ¬ delim <:+: addrOf sender) (hnd : clients.Nodup) (h2 : 2 ≤ clients.length) :
    extractMsgs [RecvEvent.chunk (p ++ delim)] = [p ++ delim] ∧
    ¬ delim <:+: (addrOf sender ++ colonSpace ++ p) ∧
    ∃ sends : List (Conn × List Nat),
      broadcast addrOf (fun _ => .ok) (p ++ delim) sender clients = .ok (sends, clients) ∧
      (∀ s ∈ sends, s.2 = (addrOf sender ++ colonSpace ++ p) ++ delim) ∧
      (∀ c ∈ clients, c ≠ sender →
        (c, (addrOf sender ++ colonSpace ++ p) ++ delim) ∈ sends) := by
  have hpd : p ++ delim ≠ [] := by
    intro h0
    exact (by decide : delim ≠ []) (List.append_eq_nil.mp h0).2
  refine ⟨?_, attributed_head_no_delim ha hp, ?_⟩
  · have h1 := @extract_chunked_frame p [p ++ delim] hp (by simp)
      (by intro c hc; simp at hc; rw [hc]; exact hpd) (by simp)
    simpa using h1
  · refine ⟨(clients.filter (fun c => decide (c ≠ sender))).map
        (fun c => (c, addrOf sender ++ colonSpace ++ (p ++ delim))), ?_, ?_, ?_⟩
    · rw [broadcast, if_neg (by omega)]
      exact broadcastLoop_all_ok sender _ clients clients
    · intro s hs0
      obtain ⟨c, _, hc2⟩ := List.mem_map.mp hs0
      rw [← hc2]
      simp [List.append_assoc]
    · intro c hc hcs
      refine List.mem_map.mpr ⟨c, List.mem_filter.mpr ⟨hc, by simp [hcs]⟩, ?_⟩
      simp [List.append_assoc]

/-- C3 witness: payload `"h"` from sender 0 with address `"A"` in
registry {0, 1}. -/
theorem single_frame_attributed_delivery_witness :
    ¬ delim <:+: ([104] : List Nat) ∧
    ¬ delim <:+: (fun _ : Conn => ([65] : List Nat)) 0 ∧
    ([0, 1] : List Conn).Nodup ∧ 2 ≤ ([0, 1] : List Conn).length ∧
    (extractMsgs [RecvEvent.chunk ([104] ++ delim)] = [[104] ++ delim] ∧
      ¬ delim <:+: ((fun _ : Conn => ([65] : List Nat)) 0 ++ colonSpace ++ [104]) ∧
      ∃ sends : List (Conn × List Nat),
        broadcast (fun _ => [65]) (fun _ => .ok) ([104] ++ delim) 0 [0, 1]
          = .ok (sends, [0, 1]) ∧
        (∀ s ∈ sends,
          s.2 = ((fun _ : Conn => ([65] : List Nat)) 0 ++ colonSpace ++ [104]) ++ delim) ∧
        (∀ c ∈ ([0, 1] : List Conn), c ≠ 0 →
          (c, ((fun _ : Conn => ([65] : List Nat)) 0 ++ colonSpace ++ [104]) ++ delim)
            ∈ sends)) :=
  ⟨by decide, by decide, by decide, by decide,
    single_frame_attributed_delivery (fun _ => [65]) [104] 0 [0, 1]
      (by decide) (by decide) (by decide) (by decide)⟩

/-- C4 counterexample: removing the absent connection 0 from the
registry [3] is not a no-op — `list.remove` raises `ValueError`
(modelled as `.error ()`). -/
theorem remove_absent_cex :
    removeClient [3] 0 = .error () ∧ removeClient [3] 0 ≠ .ok [3] :=
  ⟨rfl, fun h => by simp [removeClient, Except.map] at h⟩

/-- C4 amended: removing a connection not present in the registry
raises an error (Python `ValueError`) instead of being a no-op; in
particular a connection already removed by a failed broadcast send
cannot be removed again by its handling task without an error. -/
theorem remove_absent_raises (reg : List Conn) (c : Conn) (h : c ∉ reg) :
    removeClient reg c = .error () :=
  removeClient_absent h

/-- C4 witness. -/
theorem remove_absent_raises_witness :
    (0 : Conn) ∉ ([3] : List Conn) ∧ removeClient [3] 0 = .error () :=
  ⟨by decide, remove_absent_raises [3] 0 (by decide)⟩

/-- C5 counterexample: after a non-would-block accept error the loop
has exited (`false`) and the connection pending right behind it is
never accepted — the loop does not continue to the next iteration. -/
theorem accept_error_stops_loop_cex :
    acceptLoop [AcceptEvent.errAccept, AcceptEvent.conn 5] = ([], false) := by
  decide

/-- C5 amended: a would-block accept result yields and continues, a new
connection is handed to a handler task and the loop continues, but any
other accept error is logged and the accept loop `break`s — it
terminates instead of continuing. -/
theorem accept_loop_error_exits (es : List AcceptEvent) (c : Conn) :
    acceptLoop (AcceptEvent.errAccept :: es) = ([], false) ∧
    acceptLoop (AcceptEvent.wouldBlock :: es) = acceptLoop es ∧
    acceptLoop (AcceptEvent.conn c :: es)
      = (c :: (acceptLoop es).1, (acceptLoop es).2) :=
  ⟨rfl, rfl, rfl⟩

/-- C6 counterexample: the frame `"a<EOF>"` delivered as chunk `"a"`,
then a would-block, then chunk `"<EOF>"` decodes to `"<EOF>"` — the
buffered partial data `"a"` is discarded at the would-block, so the
result differs from the single-chunk delivery of the same frame. -/
theorem chunked_read_wouldblock_cex :
    extractMsgs [RecvEvent.chunk [97], RecvEvent.wouldBlock, RecvEvent.chunk delim]
      = [delim] ∧
    extractMsgs [RecvEvent.chunk ([97] ++ delim)] = [[97] ++ delim] ∧
    ([delim] : List (List Nat)) ≠ [[97] ++ delim] := by
  decide

/-- C6 amended: for every partition of an encoded frame into nonempty
chunks that arrive without an intervening would-block, the read path
buffers the chunks across `recv` calls and yields exactly one message,
the full frame, regardless of the chunk boundaries; a would-block
between chunks instead discards the partial buffer. -/
theorem chunked_frame_reassembly {p : List Nat} {cs : List (List Nat)}
    (hp : ¬ delim <:+: p) (hne : cs ≠ []) (hall : ∀ c ∈ cs, c ≠ [])
    (hflat : cs.flatten = p ++ delim) :
    extractMsgs (cs.map RecvEvent.chunk) = [p ++ delim] :=
  extract_chunked_frame hp hne hall hflat

/-- C6 witness: `"a<EOF>"` split as `"a<"` + `"EOF>"` — the delimiter
itself straddles the two reads. -/
theorem chunked_frame_reassembly_witness :
    ¬ delim <:+: ([97] : List Nat) ∧ ([[97, 60], [69, 79, 70, 62]] : List (List Nat)) ≠ [] ∧
    (∀ c ∈ ([[97, 60], [69, 79, 70, 62]] : List (List Nat)), c ≠ []) ∧
    ([[97, 60], [69, 79, 70, 62]] : List (List Nat)).flatten = [97] ++ delim ∧
    extractMsgs (([[97, 60], [69, 79, 70, 62]] : List (List Nat)).map RecvEvent.chunk)
      = [[97] ++ delim] :=
  ⟨by decide, by decide, by decide, by decide,
    chunked_frame_reassembly (by decide) (by decide) (by decide) (by decide)⟩

/-- C7: when the send to exactly one recipient `f` fails (broken pipe
or any other send error), the broadcast still completes without
aborting, every other non-origin recipient receives the message
exactly once, and `f` is removed from the registry. -/
theorem broadcast_fault_isolation (addrOf : Conn → List Nat) (msg : List Nat)
    (sender f : Conn) (clients : List Conn) (outcome : Conn → SendOutcome)
    (hnd : clients.Nodup) (hf : f ∈ clients) (hfs : f ≠ sender)
    (h2 : 2 ≤ clients.length) (hout1 : ∀ c, c ≠ f → outcome c = .ok)
    (hout2 : outcome f = .brokenPipe ∨ outcome f = .errSend) :
    ∃ sends : List (Conn × List Nat),
      broadcast addrOf outcome msg sender clients = .ok (sends, clients.erase f) ∧
      (∀ c ∈ clients, c ≠ sender → c ≠ f → (sends.map Prod.fst).count c = 1) ∧
      f ∉ sends.map Prod.fst ∧ f ∉ clients.erase f := by
  refine ⟨(clients.filter (fun c => decide (c ≠ sender ∧ c ≠ f))).map
      (fun c => (c, addrOf sender ++ colonSpace ++ msg)), ?_, ?_, ?_, hnd.not_mem_erase⟩
  · rw [broadcast, if_neg (by omega)]
    rw [broadcastLoop_one_fail _ hout1 hout2 hfs clients clients hnd (fun _ => hf)]
    rw [if_pos hf]
  · intro c hc hcs hcf
    rw [List.map_map,
      show (Prod.fst ∘ fun c : Conn => (c, addrOf sender ++ colonSpace ++ msg)) = id from rfl,
      List.map_id, List.count_filter (by simp [hcs, hcf])]
    exact List.count_eq_one_of_mem hnd hc
  · rw [List.map_map,
      show (Prod.fst ∘ fun c : Conn => (c, addrOf sender ++ colonSpace ++ msg)) = id from rfl,
      List.map_id]
    intro hmem
    have hdec := (List.mem_filter.mp hmem).2
    simp at hdec

/-- C7 witness: registry {0, 1, 2}, sender 0, recipient 1 fails with a
broken pipe; 2 still receives and 1 is dropped from the registry. -/
theorem broadcast_fault_isolation_witness :
    ([0, 1, 2] : List Conn).Nodup ∧ (1 : Conn) ∈ ([0, 1, 2] : List Conn) ∧
    (1 : Conn) ≠ 0 ∧ 2 ≤ ([0, 1, 2] : List Conn).length ∧
    (∀ c : Conn, c ≠ 1 →
      (fun c : Conn => if c = 1 then SendOutcome.brokenPipe else SendOutcome.ok) c = .ok) ∧
    ((fun c : Conn => if c = 1 then SendOutcome.brokenPipe else SendOutcome.ok) 1
        = .brokenPipe ∨
      (fun c : Conn => if c = 1 then SendOutcome.brokenPipe else SendOutcome.ok) 1
        = .errSend) ∧
    ∃ sends : List (Conn × List Nat),
      broadcast (fun _ => [65])
          (fun c => if c = 1 then SendOutcome.brokenPipe else SendOutcome.ok)
          [104] 0 [0, 1, 2]
        = .ok (sends, ([0, 1, 2] : List Conn).erase 1) ∧
      (∀ c ∈ ([0, 1, 2] : List Conn), c ≠ 0 → c ≠ 1 →
        (sends.map Prod.fst).count c = 1) ∧
      (1 : Conn) ∉ sends.map Prod.fst ∧ (1 : Conn) ∉ ([0, 1, 2] : List Conn).erase 1 :=
  ⟨by decide, by decide, by decide, by decide,
    fun c hc => by simp [hc], Or.inl rfl,
    broadcast_fault_isolation (fun _ => [65]) [104] 0 1 [0, 1, 2]
      (fun c => if c = 1 then SendOutcome.brokenPipe else SendOutcome.ok)
      (by decide) (by decide) (by decide) (by decide)
      (fun c hc => by simp [hc]) (Or.inl rfl)⟩

/-- C8: broadcasting with fewer than two registered connections is a
no-op: no sends, no error, registry unchanged. -/
theorem broadcast_no_recipient_noop (addrOf : Conn → List Nat)
    (outcome : Conn → SendOutcome) (msg : List Nat) (sender : Conn)
    (clients : List Conn) (h : clients.length < 2) :
    broadcast addrOf outcome msg sender clients = .ok ([], clients) := by
  rw [broadcast, if_pos h]

/-- C8 witness: a single registered connection broadcasting to itself
does nothing and raises nothing. -/
theorem broadcast_no_recipient_noop_witness :
    ([7] : List Conn).length < 2 ∧
    broadcast (fun _ => [65]) (fun _ => .ok) [104] 7 [7] = .ok ([], [7]) :=
  ⟨by decide, broadcast_no_recipient_noop (fun _ => [65]) (fun _ => .ok) [104] 7 [7]
    (by decide)⟩

/-- C9: for every payload that does not contain the delimiter,
appending the delimiter (client send path) and then deleting delimiter
occurrences (client display path) returns the original payload. -/
theorem framing_round_trip (p : List Nat) (hp : ¬ delim <:+: p) :
    stripEOF (encodeMsg p) = p :=
  stripEOF_encode_eq hp

/-- C9 witness: round-trip on the payload `"hi"`. -/
theorem framing_round_trip_witness :
    ¬ delim <:+: ([104, 105] : List Nat) ∧
    stripEOF (encodeMsg [104, 105]) = [104, 105] :=
  ⟨by decide, framing_round_trip [104, 105] (by decide)⟩

/-- C10: on an orderly peer close (empty `recv` result) the bytes
accumulated in the connection's buffer are still handed to `broadcast`
even though they do not end with the delimiter. -/
theorem disconnect_flushes_buffer (b : List Nat) (hb : b ≠ [])
    (hnd : ¬ delim <:+ b) :
    extractMsgs [RecvEvent.chunk b, RecvEvent.chunk []] = [b] := by
  have hread : readAllAux [RecvEvent.chunk b, RecvEvent.chunk []] [] = (.closed b, []) := by
    rw [readAllAux, if_neg hb, if_neg (by simpa using hnd)]
    rw [readAllAux]
    simp
  show extractLoop 2 _ = _
  exact extractLoop_closed 1 _ _ hread hb

/-- C10 witness: the unterminated byte `"h"` buffered when the peer
closes is still broadcast. -/
theorem disconnect_flushes_buffer_witness :
    ([104] : List Nat) ≠ [] ∧ ¬ delim <:+ ([104] : List Nat) ∧
    extractMsgs [RecvEvent.chunk [104], RecvEvent.chunk []] = [[104]] :=
  ⟨by decide, by decide, disconnect_flushes_buffer [104] (by decide) (by decide)⟩

end ChatApp
